import Mathlib

/-!
Verification of the BioSeqDownloader request-caching and query-decomposition
engine (src/base.py and src/utils.py) against its specification.

Python values flowing through the engine (query parameters, cached responses,
option maps) are embedded as the inductive type `JVal`; Python dicts are
embedded as insertion-ordered association lists with distinct keys, so that
both key order (which Python dicts preserve) and key lookup are represented.
-/

/-- Embedding of the Python values handled by the engine: None, strings,
integers, lists and (insertion-ordered) dicts. -/
inductive JVal : Type where
  | vnull : JVal
  | vstr (s : String) : JVal
  | vint (n : Int) : JVal
  | vlist (xs : List JVal) : JVal
  | vdict (entries : List (String × JVal)) : JVal

mutual

/-- Python structural equality `==` on embedded values. -/
def jeq : JVal → JVal → Bool
  | .vnull, .vnull => true
  | .vstr s, .vstr t => s == t
  | .vint m, .vint n => m == n
  | .vlist xs, .vlist ys => jeqList xs ys
  | .vdict ds, .vdict es => jeqEntries ds es
  | _, _ => false

def jeqList : List JVal → List JVal → Bool
  | [], [] => true
  | x :: xs, y :: ys => jeq x y && jeqList xs ys
  | _, _ => false

def jeqEntries : List (String × JVal) → List (String × JVal) → Bool
  | [], [] => true
  | d :: ds, e :: es => (d.1 == e.1) && jeq d.2 e.2 && jeqEntries ds es
  | _, _ => false

end

/-- A Python dict: an insertion-ordered association list. Real dicts have
distinct keys; theorems carry `Nodup` hypotheses where that matters. -/
abbrev PyDict := List (String × JVal)

def JVal.isDict : JVal → Bool
  | .vdict _ => true
  | _ => false

def JVal.isList : JVal → Bool
  | .vlist _ => true
  | _ => false

/-- First-match lookup in an association list, the semantics of
Python `d[k]` / `k in d` on a dict embedded as an ordered list. -/
def plookup (k : String) : PyDict → Option JVal
  | [] => none
  | kv :: rest => if kv.1 = k then some kv.2 else plookup k rest

/-- Python dict assignment `d[k] = v`: updates the first occurrence of `k`
in place (keeping its position) or appends a new entry at the end. -/
def assocSet : PyDict → String → JVal → PyDict
  | [], k, v => [(k, v)]
  | kv :: rest, k, v =>
    if kv.1 = k then (kv.1, v) :: rest else kv :: assocSet rest k v

/-- Splitting a character list at every character satisfying `p`, keeping
empty pieces, the semantics of Python re.split / str.split. -/
def splitChars (p : Char → Bool) : List Char → List (List Char)
  | [] => [[]]
  | c :: cs =>
    if p c then [] :: splitChars p cs
    else
      match splitChars p cs with
      | [] => [[c]]
      | piece :: rest => (c :: piece) :: rest

def splitStr (p : Char → Bool) (s : String) : List String :=
  (splitChars p s.data).map fun cs => String.mk cs

/-- Python `path.split(".")`. -/
def splitDots (s : String) : List String :=
  splitStr (fun c => c = '.') s

/-- Code-point lexicographic comparison of character lists, the ordering
Python uses to compare strings. -/
def strLEb : List Char → List Char → Bool
  | [], _ => true
  | _ :: _, [] => false
  | a :: as, b :: bs =>
    if a.toNat < b.toNat then true
    else if b.toNat < a.toNat then false
    else strLEb as bs

/-- Python string ordering as a relation on `String`. -/
def strLE (s t : String) : Prop := strLEb s.data t.data = true

instance : DecidableRel strLE := fun s t =>
  inferInstanceAs (Decidable (strLEb s.data t.data = true))

theorem strLEb_total : ∀ as bs, strLEb as bs = true ∨ strLEb bs as = true := by
  intro as
  induction as with
  | nil => intro bs; left; rfl
  | cons a as ih =>
    intro bs
    cases bs with
    | nil => right; rfl
    | cons b bs =>
      by_cases hab : a.toNat < b.toNat
      · left; simp [strLEb, hab]
      · by_cases hba : b.toNat < a.toNat
        · right; simp [strLEb, hba]
        · rcases ih bs with h | h
          · left; simp [strLEb, hab, hba, h]
          · right; simp [strLEb, hab, hba, h]

theorem strLEb_trans : ∀ as bs cs, strLEb as bs = true → strLEb bs cs = true →
    strLEb as cs = true := by
  intro as
  induction as with
  | nil => intro bs cs _ _; rfl
  | cons a as ih =>
    intro bs cs h₁ h₂
    cases bs with
    | nil => simp [strLEb] at h₁
    | cons b bs =>
      cases cs with
      | nil => simp [strLEb] at h₂
      | cons c cs =>
        simp only [strLEb] at h₁ h₂ ⊢
        split at h₁
        · rename_i hab
          split
          · rfl
          · rename_i hac
            split at h₂
            · omega
            · rename_i hbc
              split at h₂
              · exact absurd h₂ (by simp)
              · omega
        · rename_i hab
          split at h₁
          · exact absurd h₁ (by simp)
          · rename_i hba
            split at h₂
            · rename_i hbc
              split
              · rfl
              · omega
            · rename_i hbc
              split at h₂
              · exact absurd h₂ (by simp)
              · rename_i hcb
                split
                · rfl
                · split
                  · omega
                  · exact ih bs cs h₁ h₂

theorem charEq_of_toNat_eq {a b : Char} (h : a.toNat = b.toNat) : a = b :=
  Char.ext (UInt32.ext h)

theorem strLEb_antisymm : ∀ as bs, strLEb as bs = true → strLEb bs as = true →
    as = bs := by
  intro as
  induction as with
  | nil =>
    intro bs _ h
    cases bs with
    | nil => rfl
    | cons b bs => simp [strLEb] at h
  | cons a as ih =>
    intro bs h₁ h₂
    cases bs with
    | nil => simp [strLEb] at h₁
    | cons b bs =>
      simp only [strLEb] at h₁ h₂
      by_cases hab : a.toNat < b.toNat
      · rw [if_neg (by omega), if_pos hab] at h₂
        exact absurd h₂ (by simp)
      · by_cases hba : b.toNat < a.toNat
        · rw [if_neg hab, if_pos hba] at h₁
          exact absurd h₁ (by simp)
        · have hcc : a = b := charEq_of_toNat_eq (by omega)
          subst hcc
          rw [if_neg hab, if_neg hba] at h₁ h₂
          rw [ih bs h₁ h₂]

instance : IsTotal String strLE := ⟨fun s t => strLEb_total s.data t.data⟩

instance : IsTrans String strLE :=
  ⟨fun _ _ _ h₁ h₂ => strLEb_trans _ _ _ h₁ h₂⟩

instance : IsAntisymm String strLE :=
  ⟨fun s t h₁ h₂ => by
    cases s; cases t
    exact congrArg String.mk (strLEb_antisymm _ _ h₁ h₂)⟩

/-- Ordering of dict entries by key, as used by Python
`sorted(input_dict.items())` (keys are distinct in a dict, so the tuple
comparison never reaches the values). -/
def keyLE (p q : String × JVal) : Prop := strLE p.1 q.1

instance : DecidableRel keyLE := fun p q =>
  inferInstanceAs (Decidable (strLE p.1 q.1))

instance : IsTotal (String × JVal) keyLE := ⟨fun a b => total_of strLE a.1 b.1⟩

instance : IsTrans (String × JVal) keyLE :=
  ⟨fun _ _ _ h₁ h₂ => trans_of strLE h₁ h₂⟩

def sortPairs (d : PyDict) : PyDict := List.insertionSort keyLE d

/-- Python `sorted` on a homogeneous list of scalars. The source only sorts
lists whose elements are not dicts; on a non-homogeneous list of
non-comparable elements Python `sorted` raises TypeError, so such lists are
left unchanged here and every theorem stays inside the homogeneous domain. -/
def sortScalars (xs : List JVal) : List JVal :=
  match xs.mapM (fun v => match v with | .vstr s => some s | _ => none) with
  | some ss => (List.insertionSort strLE ss).map JVal.vstr
  | none =>
    match xs.mapM (fun v => match v with | .vint n => some n | _ => none) with
    | some ns => (List.insertionSort (fun a b : Int => a ≤ b) ns).map JVal.vint
    | none => xs

/-- The list-value normalization of BaseAPIInterface._filter_dict_keys:
a list value is sorted when none of its items is a dict. -/
def canonValue : JVal → JVal
  | .vlist xs =>
    if xs.all (fun x => !x.isDict) then .vlist (sortScalars xs) else .vlist xs
  | v => v

/-- BaseAPIInterface._filter_dict_keys with sort_lists=True (the only form
used by _make_cache_key): iterate entries in sorted key order, drop ignored
keys, sort list values whose items are all non-dicts. -/
def filterDictKeys (ignore : List String) (d : PyDict) : PyDict :=
  (sortPairs d).filterMap fun kv =>
    if kv.1 ∈ ignore then none else some (kv.1, canonValue kv.2)

/-- A single-quote character, used by the Python repr of strings. -/
def pyQuote : String := String.singleton (Char.ofNat 39)

mutual

/-- Python repr of an embedded value. String escaping is not modelled; the
identifying values in all claims are plain identifiers without quotes. -/
def pyRepr : JVal → String
  | .vnull => "None"
  | .vstr s => pyQuote ++ s ++ pyQuote
  | .vint n => toString n
  | .vlist xs => "[" ++ String.intercalate ", " (pyReprList xs) ++ "]"
  | .vdict entries =>
    "\x7b" ++ String.intercalate ", " (pyReprEntries entries) ++ "\x7d"

def pyReprList : List JVal → List String
  | [] => []
  | x :: xs => pyRepr x :: pyReprList xs

def pyReprEntries : List (String × JVal) → List String
  | [] => []
  | kv :: rest =>
    (pyQuote ++ kv.1 ++ pyQuote ++ ": " ++ pyRepr kv.2) :: pyReprEntries rest

end

/-- Python str() of an embedded value: the raw string for strings, repr
otherwise. -/
def pyStr : JVal → String
  | .vstr s => s
  | v => pyRepr v

mutual

/-- Python json.dumps with sort_keys=True. The top-level dict passed to it by
_make_cache_key is already key-sorted by _filter_dict_keys; nested dict keys
would additionally be sorted by json.dumps, which is not modelled since no
claim involves nested dicts. String escaping is likewise not modelled. -/
def dumps : JVal → String
  | .vnull => "null"
  | .vstr s => "\"" ++ s ++ "\""
  | .vint n => toString n
  | .vlist xs => "[" ++ String.intercalate ", " (dumpsList xs) ++ "]"
  | .vdict entries =>
    "\x7b" ++ String.intercalate ", " (dumpsEntries entries) ++ "\x7d"

def dumpsList : List JVal → List String
  | [] => []
  | x :: xs => dumps x :: dumpsList xs

def dumpsEntries : List (String × JVal) → List String
  | [] => []
  | kv :: rest => ("\"" ++ kv.1 ++ "\": " ++ dumps kv.2) :: dumpsEntries rest

end

/-- Python "_".join. -/
def joinUnderscore : List String → String
  | [] => ""
  | [x] => x
  | x :: xs => x ++ "_" ++ joinUnderscore xs

/-- The three input shapes accepted by _make_cache_key: a dict, a string, or
any other json-serializable object (e.g. a list of identifiers). -/
inductive QueryIn : Type where
  | qdict (d : PyDict) : QueryIn
  | qstr (s : String) : QueryIn
  | qother (v : JVal) : QueryIn

/-- BaseAPIInterface.cache_key_ignore_args. -/
def cacheKeyIgnoreArgs : List String :=
  ["parse", "to_dataframe", "fields_to_extract", "config_key",
   "pages_to_fetch", "outfmt", "format", "download"]

/-- BaseAPIInterface._make_cache_key: serialize the query (filtered and
key-sorted for dicts, verbatim for strings, json for anything else), then
append the underscore-join of the str() of the values (not the keys) of the
non-ignored keyword arguments in sorted key order. -/
def makeCacheKey (ignore : List String) (input_obj : QueryIn)
    (kwargs : PyDict) : String :=
  let base :=
    match input_obj with
    | .qdict d => dumps (.vdict (filterDictKeys ignore d))
    | .qstr s => s
    | .qother v => dumps v
  let relevant := filterDictKeys ignore kwargs
  let extra := joinUnderscore (relevant.map fun kv => pyStr kv.2)
  if base ≠ "" then
    (if extra ≠ "" then base ++ "_" ++ extra else base)
  else extra

example :
    makeCacheKey cacheKeyIgnoreArgs (.qstr "P12345") [("a", .vint 1)] =
      "P12345_1" := by rfl

example :
    makeCacheKey cacheKeyIgnoreArgs (.qstr "P12345") [("b", .vint 1)] =
      "P12345_1" := by rfl

example :
    makeCacheKey cacheKeyIgnoreArgs
      (.qdict [("b", .vstr "x"), ("a", .vlist [.vstr "q", .vstr "p"])]) [] =
      makeCacheKey cacheKeyIgnoreArgs
      (.qdict [("a", .vlist [.vstr "p", .vstr "q"]), ("b", .vstr "x")]) [] := by
  rfl

theorem strAppend_cancel_right {x y s : String} (h : x ++ s = y ++ s) :
    x = y := by
  have hd : x.data ++ s.data = y.data ++ s.data := by
    have hc := congrArg String.data h
    simpa [String.data_append] using hc
  have hxy : x.data = y.data := List.append_cancel_right hd
  cases x; cases y
  exact congrArg String.mk hxy

/-- C3 is contradicted by the code: the claim that two option maps with
different keys but equal values get distinct cache keys is false: _make_cache_key serializes only the values of
the non-ignored keyword arguments, so two maps that differ only in their key
names collide. -/
theorem c3_cache_key_collision :
    makeCacheKey cacheKeyIgnoreArgs (.qstr "P12345")
        [("operation", .vstr "interaction")] =
      makeCacheKey cacheKeyIgnoreArgs (.qstr "P12345")
        [("method", .vstr "interaction")] ∧
    ("operation" : String) ≠ "method" ∧
    "operation" ∉ cacheKeyIgnoreArgs ∧ "method" ∉ cacheKeyIgnoreArgs := by
  refine ⟨by rfl, by decide, by decide, by decide⟩

/-- Amended C3: with the option arguments held fixed, two calls on distinct
scalar (string) queries always produce distinct cache keys;
the option-map part of the key is only an underscore-join of values in sorted
key order, so it cannot remove the distinction introduced by the base. -/
theorem c3_cache_key_query_distinct (q₁ q₂ : String) (kw : PyDict)
    (h : q₁ ≠ q₂) :
    makeCacheKey cacheKeyIgnoreArgs (.qstr q₁) kw ≠
      makeCacheKey cacheKeyIgnoreArgs (.qstr q₂) kw := by
  unfold makeCacheKey
  simp only
  by_cases he :
      joinUnderscore
        ((filterDictKeys cacheKeyIgnoreArgs kw).map fun kv => pyStr kv.2) = ""
  · rw [he]
    simp only [ne_eq, not_true_eq_false, if_false]
    by_cases h₁ : q₁ = ""
    · subst h₁
      simp only [ne_eq, not_true_eq_false, if_false]
      by_cases h₂ : q₂ = ""
      · exact absurd h₂.symm h
      · rw [if_pos h₂]
        exact fun hc => h hc
    · rw [if_pos h₁]
      by_cases h₂ : q₂ = ""
      · subst h₂
        simpa using h
      · rw [if_pos h₂]
        exact h
  · by_cases h₁ : q₁ = ""
    · subst h₁
      simp only [ne_eq, not_true_eq_false, if_false]
      by_cases h₂ : q₂ = ""
      · exact absurd h₂.symm h
      · rw [if_pos h₂, if_pos he]
        intro hc
        have hlen := congrArg String.length hc
        simp [String.length_append] at hlen
        have : q₂.length = 0 := by omega
        exact h₂ (by
          cases q₂ with
          | mk l =>
            cases l with
            | nil => rfl
            | cons c cs => simp [String.length, List.length] at this)
    · rw [if_pos h₁]
      by_cases h₂ : q₂ = ""
      · subst h₂
        simp only [ne_eq, not_true_eq_false, if_false]
        rw [if_pos he]
        intro hc
        have hlen := congrArg String.length hc
        simp [String.length_append] at hlen
        have : q₁.length = 0 := by omega
        exact h₁ (by
          cases q₁ with
          | mk l =>
            cases l with
            | nil => rfl
            | cons c cs => simp [String.length, List.length] at this)
      · rw [if_pos h₂, if_pos he, if_pos he]
        intro hc
        exact h (strAppend_cancel_right (strAppend_cancel_right
          (by simpa [String.append_assoc] using hc)))

theorem c3_cache_key_query_distinct_witness :
    makeCacheKey cacheKeyIgnoreArgs (.qstr "P12345")
        [("operation", .vstr "interaction")] ≠
      makeCacheKey cacheKeyIgnoreArgs (.qstr "Q67890")
        [("operation", .vstr "interaction")] :=
  c3_cache_key_query_distinct "P12345" "Q67890"
    [("operation", .vstr "interaction")] (by decide)

/-- Canonicalization applied to one dict entry by _filter_dict_keys: the key
is kept and the value has its scalar lists sorted. -/
def canonPair (kv : String × JVal) : String × JVal := (kv.1, canonValue kv.2)

/-- Two embedded dicts carry the same identifying information when their
entries agree as multisets after canonicalization: this holds exactly for
key-order permutations and reorderings of scalar-sequence values. -/
def DictEquiv (d₁ d₂ : PyDict) : Prop :=
  (d₁.map canonPair).Perm (d₂.map canonPair)

theorem canonPair_fst (kv : String × JVal) : (canonPair kv).1 = kv.1 := rfl

theorem map_fst_map_canonPair (d : PyDict) :
    (d.map canonPair).map Prod.fst = d.map Prod.fst := by
  induction d with
  | nil => rfl
  | cons kv rest ih => simp [canonPair, ih]

theorem orderedInsert_map_canonPair (kv : String × JVal) (l : PyDict) :
    (List.orderedInsert keyLE kv l).map canonPair =
      List.orderedInsert keyLE (canonPair kv) (l.map canonPair) := by
  induction l with
  | nil => rfl
  | cons b rest ih =>
    by_cases h : keyLE kv b
    · rw [List.orderedInsert_of_le _ _ h]
      have h2 : keyLE (canonPair kv) (canonPair b) := h
      rw [List.map_cons, List.map_cons, List.orderedInsert_of_le _ _ h2]
    · have h2 : ¬ keyLE (canonPair kv) (canonPair b) := h
      simp only [List.orderedInsert, if_neg h, List.map_cons, if_neg h2, ih]

theorem sortPairs_map_canonPair (d : PyDict) :
    (sortPairs d).map canonPair = sortPairs (d.map canonPair) := by
  induction d with
  | nil => rfl
  | cons kv rest ih =>
    simp only [sortPairs, List.insertionSort, List.map_cons]
    rw [orderedInsert_map_canonPair]
    simp only [sortPairs] at ih
    rw [ih]

/-- The entry filter of _filter_dict_keys with canonicalization factored out. -/
def dropIgnored (ignore : List String) (kv : String × JVal) :
    Option (String × JVal) :=
  if kv.1 ∈ ignore then none else some kv

theorem filterDictKeys_eq_canon (ignore : List String) (d : PyDict) :
    filterDictKeys ignore d =
      (sortPairs (d.map canonPair)).filterMap (dropIgnored ignore) := by
  rw [← sortPairs_map_canonPair]
  unfold filterDictKeys
  rw [List.filterMap_map]
  congr 1

/-- Strict version of the key order, used to exploit key uniqueness. -/
def keyLT (p q : String × JVal) : Prop := keyLE p q ∧ p.1 ≠ q.1

instance : IsAntisymm (String × JVal) keyLT :=
  ⟨fun _ _ h₁ h₂ => absurd (antisymm (r := strLE) h₁.1 h₂.1) h₁.2⟩

theorem sorted_keyLT_of_sorted_nodup {l : PyDict}
    (hs : List.Sorted keyLE l) (hn : (l.map Prod.fst).Nodup) :
    List.Sorted keyLT l := by
  have hp : l.Pairwise fun a b => a.1 ≠ b.1 := by
    rw [List.Nodup, List.pairwise_map] at hn
    exact hn
  exact List.Pairwise.and hs hp

theorem sortPairs_eq_of_perm {m₁ m₂ : PyDict} (hp : m₁.Perm m₂)
    (hn₁ : (m₁.map Prod.fst).Nodup) :
    sortPairs m₁ = sortPairs m₂ := by
  have hn₂ : (m₂.map Prod.fst).Nodup := (hp.map Prod.fst).nodup_iff.mp hn₁
  have hperm : (sortPairs m₁).Perm (sortPairs m₂) :=
    ((List.perm_insertionSort keyLE m₁).trans hp).trans
      (List.perm_insertionSort keyLE m₂).symm
  have hs₁ : List.Sorted keyLE (sortPairs m₁) := List.sorted_insertionSort _ _
  have hs₂ : List.Sorted keyLE (sortPairs m₂) := List.sorted_insertionSort _ _
  have hns₁ : ((sortPairs m₁).map Prod.fst).Nodup :=
    (((List.perm_insertionSort keyLE m₁)).map Prod.fst).nodup_iff.mpr hn₁
  have hns₂ : ((sortPairs m₂).map Prod.fst).Nodup :=
    (((List.perm_insertionSort keyLE m₂)).map Prod.fst).nodup_iff.mpr hn₂
  exact List.eq_of_perm_of_sorted hperm
    (sorted_keyLT_of_sorted_nodup hs₁ hns₁)
    (sorted_keyLT_of_sorted_nodup hs₂ hns₂)

theorem filterDictKeys_congr (ignore : List String) {d₁ d₂ : PyDict}
    (h : DictEquiv d₁ d₂) (hn : (d₁.map Prod.fst).Nodup) :
    filterDictKeys ignore d₁ = filterDictKeys ignore d₂ := by
  rw [filterDictKeys_eq_canon, filterDictKeys_eq_canon]
  have hn₁ : ((d₁.map canonPair).map Prod.fst).Nodup := by
    rw [map_fst_map_canonPair]; exact hn
  rw [sortPairs_eq_of_perm h hn₁]

/-- C6: _make_cache_key is invariant under permutations of a parameter map's
key order, reorderings of its scalar-sequence values, and orderings of the
non-ignored option arguments: sorted(input_dict.items()) with sorted list
values canonicalizes the dict part, and the same filter canonicalizes the
keyword-argument part before its values are joined. -/
theorem c6_cache_key_order_invariant (d₁ d₂ kw₁ kw₂ : PyDict)
    (hd : DictEquiv d₁ d₂) (hdn : (d₁.map Prod.fst).Nodup)
    (hkw : DictEquiv kw₁ kw₂) (hkn : (kw₁.map Prod.fst).Nodup) :
    makeCacheKey cacheKeyIgnoreArgs (.qdict d₁) kw₁ =
      makeCacheKey cacheKeyIgnoreArgs (.qdict d₂) kw₂ := by
  simp only [makeCacheKey]
  rw [filterDictKeys_congr cacheKeyIgnoreArgs hd hdn,
    filterDictKeys_congr cacheKeyIgnoreArgs hkw hkn]

theorem c6_cache_key_order_invariant_witness :
    makeCacheKey cacheKeyIgnoreArgs
        (.qdict [("organism", .vstr "human"),
                 ("genes", .vlist [.vstr "TP53", .vstr "BRCA1"])])
        [("option", .vstr "interaction"), ("method", .vstr "get")] =
      makeCacheKey cacheKeyIgnoreArgs
        (.qdict [("genes", .vlist [.vstr "BRCA1", .vstr "TP53"]),
                 ("organism", .vstr "human")])
        [("method", .vstr "get"), ("option", .vstr "interaction")] := by
  refine c6_cache_key_order_invariant _ _ _ _ ?_ ?_ ?_ ?_
  · show List.Perm
      [(("organism" : String), JVal.vstr "human"),
       ("genes", JVal.vlist [.vstr "BRCA1", .vstr "TP53"])]
      [(("genes" : String), JVal.vlist [.vstr "BRCA1", .vstr "TP53"]),
       ("organism", JVal.vstr "human")]
    exact List.Perm.swap _ _ _
  · decide
  · show List.Perm
      [(("option" : String), JVal.vstr "interaction"),
       ("method", JVal.vstr "get")]
      [(("method" : String), JVal.vstr "get"),
       ("option", JVal.vstr "interaction")]
    exact List.Perm.swap _ _ _
  · decide

/-- Method specification as read by decompose_query: the parameter table
maps each name to its is_id flag (the declared type and default value of the
METHODS triples are consumed only by parameter preparation, which no claim
touches), plus the declared groupable parameter names. The METHODS /
option-lookup validation preceding the body of decompose_query is resolved
by the caller here, so the spec is passed directly. -/
structure MethodSpec : Type where
  parameters : List (String × Bool)
  group_queries : List String

/-- Ordering of itertools.product: the first pool varies slowest. -/
def cartProdJ : List (List JVal) → List (List JVal)
  | [] => [[]]
  | pool :: rest => pool.flatMap fun v => (cartProdJ rest).map fun combo => v :: combo

/-- BaseAPIInterface.decompose_query: collect the identity parameter names
present in the query (in declaration order); if none of them is groupable,
return the empty list; otherwise take the product of the list-valued
groupable parameters and build one subquery per combination, zipping the
combination against the whole group_queries list exactly as the source does. -/
def decompose_query (spec : MethodSpec) (query : PyDict) :
    List (String × PyDict) :=
  let keys := (spec.parameters.filter fun p =>
    p.2 && (plookup p.1 query).isSome).map Prod.fst
  if !(keys.any fun k => spec.group_queries.contains k) then []
  else
    let pools := spec.group_queries.filterMap fun k =>
      match plookup k query with
      | some (.vlist xs) => some xs
      | _ => none
    (cartProdJ pools).map fun combo =>
      let pairs := spec.group_queries.zip combo
      let subquery := pairs.foldl (fun q kv => assocSet q kv.1 kv.2) query
      let idParts := (pairs.map fun kv => pyStr kv.2) ++
        ((keys.filter fun k => !spec.group_queries.contains k).map fun k =>
          pyStr ((plookup k query).getD .vnull))
      (joinUnderscore idParts, subquery)

/-- Python list membership `v in xs`, which compares with `==`. -/
def pyElem (xs : List JVal) (v : JVal) : Bool := xs.any fun x => jeq x v

/-- One key/value insertion of BaseAPIInterface.merge_dicts: a new key is
appended; an existing list value is extended in place with a not-yet-present
value; an existing non-list value is paired into a two-element list when the
new value differs. -/
def mergeStep (m : PyDict) (kv : String × JVal) : PyDict :=
  match plookup kv.1 m with
  | none => m ++ [kv]
  | some (.vlist xs) =>
    if pyElem xs kv.2 then m else assocSet m kv.1 (.vlist (xs ++ [kv.2]))
  | some w =>
    if jeq w kv.2 then m else assocSet m kv.1 (.vlist [w, kv.2])

/-- BaseAPIInterface.merge_dicts. -/
def merge_dicts (ds : List PyDict) : PyDict :=
  ds.foldl (fun m d => d.foldl mergeStep m) []

/-- A method specification with a single identity parameter that is also
groupable, the shape used by BioGRID-style gene batch queries. -/
def groupableGeneSpec : MethodSpec :=
  { parameters := [("gene", true)], group_queries := ["gene"] }

/-- C5 is contradicted by the code: for a query whose only groupable
identity parameter holds a scalar (non-sequence) value, decompose_query does
not return the empty result the spec and its own docstring describe; the
product over zero list-valued parameters has the single empty combination,
producing one trivial subquery whose identifier is the empty string. -/
theorem c5_scalar_groupable_not_empty :
    decompose_query groupableGeneSpec [("gene", .vstr "P12345")] =
      [("", [("gene", .vstr "P12345")])] ∧
    decompose_query groupableGeneSpec [("gene", .vstr "P12345")] ≠ [] := by
  refine ⟨rfl, ?_⟩
  rw [show decompose_query groupableGeneSpec [("gene", .vstr "P12345")] =
    [("", [("gene", .vstr "P12345")])] from rfl]
  simp

/-- C7 as stated is false: a query whose groupable identity parameter lists
the same identifier twice yields two subqueries with identical identifiers,
and merging their parameter maps collapses the duplicate into a scalar,
which does not reconstruct the original list-valued query. -/
theorem c7_duplicate_identifier_counterexample :
    (decompose_query groupableGeneSpec
        [("gene", .vlist [.vstr "P1", .vstr "P1"])]).map Prod.fst =
      ["P1", "P1"] ∧
    ¬ ((decompose_query groupableGeneSpec
        [("gene", .vlist [.vstr "P1", .vstr "P1"])]).map Prod.fst).Nodup ∧
    merge_dicts ((decompose_query groupableGeneSpec
        [("gene", .vlist [.vstr "P1", .vstr "P1"])]).map Prod.snd) =
      [("gene", .vstr "P1")] := by
  refine ⟨rfl, by decide, rfl⟩

def JVal.isScalar : JVal → Bool
  | .vnull => true
  | .vstr _ => true
  | .vint _ => true
  | _ => false

theorem jeq_refl_scalar {v : JVal} (h : v.isScalar = true) : jeq v v = true := by
  cases v <;> simp_all [jeq, JVal.isScalar]

theorem plookup_eq_of_mem_nodup {q : PyDict} {kv : String × JVal}
    (hn : (q.map Prod.fst).Nodup) (hm : kv ∈ q) :
    plookup kv.1 q = some kv.2 := by
  induction q with
  | nil => cases hm
  | cons a rest ih =>
    rcases List.mem_cons.mp hm with h | h
    · subst h
      simp [plookup]
    · have hne : a.1 ≠ kv.1 := by
        intro hc
        have : kv.1 ∈ rest.map Prod.fst := List.mem_map_of_mem Prod.fst h
        rw [List.map_cons, List.nodup_cons] at hn
        exact hn.1 (hc ▸ this)
      rw [plookup, if_neg hne]
      exact ih (by rw [List.map_cons, List.nodup_cons] at hn; exact hn.2) h

theorem split_of_plookup {g : String} {w : JVal} :
    ∀ {q : PyDict}, plookup g q = some w →
      ∃ A B, q = A ++ (g, w) :: B ∧ ∀ kv ∈ A, kv.1 ≠ g := by
  intro q
  induction q with
  | nil => intro h; cases h
  | cons a rest ih =>
    intro h
    by_cases ha : a.1 = g
    · rw [plookup, if_pos ha] at h
      refine ⟨[], rest, ?_, by simp⟩
      have : a = (g, w) := by
        cases a
        simp_all
      rw [this]
      rfl
    · rw [plookup, if_neg ha] at h
      obtain ⟨A, B, hq, hA⟩ := ih h
      exact ⟨a :: A, B, by rw [hq]; rfl, by
        intro kv hkv
        rcases List.mem_cons.mp hkv with h₂ | h₂
        · subst h₂; exact ha
        · exact hA kv h₂⟩

theorem assocSet_append_not_mem {A : PyDict} {g : String}
    (hA : ∀ kv ∈ A, kv.1 ≠ g) (w v : JVal) (B : PyDict) :
    assocSet (A ++ (g, w) :: B) g v = A ++ (g, v) :: B := by
  induction A with
  | nil => simp [assocSet]
  | cons a rest ih =>
    have ha : a.1 ≠ g := hA a (List.mem_cons_self a rest)
    simp only [List.cons_append, assocSet, if_neg ha]
    show a :: assocSet (rest ++ (g, w) :: B) g v = a :: (rest ++ (g, v) :: B)
    rw [ih (fun kv hkv => hA kv (List.mem_cons_of_mem a hkv))]

theorem plookup_append_mid {A : PyDict} {g : String}
    (hA : ∀ kv ∈ A, kv.1 ≠ g) (w : JVal) (B : PyDict) :
    plookup g (A ++ (g, w) :: B) = some w := by
  induction A with
  | nil => simp [plookup]
  | cons a rest ih =>
    have ha : a.1 ≠ g := hA a (List.mem_cons_self a rest)
    simp only [List.cons_append, plookup, if_neg ha]
    exact ih fun kv hkv => hA kv (List.mem_cons_of_mem a hkv)

theorem plookup_append {k : String} :
    ∀ (m₁ m₂ : PyDict), plookup k (m₁ ++ m₂) =
      match plookup k m₁ with
      | some v => some v
      | none => plookup k m₂ := by
  intro m₁
  induction m₁ with
  | nil => intro m₂; rfl
  | cons a rest ih =>
    intro m₂
    by_cases ha : a.1 = k
    · simp [plookup, ha]
    · simp only [List.cons_append, plookup, if_neg ha]
      exact ih m₂

theorem foldl_mergeStep_fresh :
    ∀ (D m : PyDict), (∀ kv ∈ D, plookup kv.1 m = none) →
      (D.map Prod.fst).Nodup → D.foldl mergeStep m = m ++ D := by
  intro D
  induction D with
  | nil => intro m _ _; simp
  | cons kv rest ih =>
    intro m hfresh hnd
    have hkv : plookup kv.1 m = none := hfresh kv (List.mem_cons_self kv rest)
    have hstep : mergeStep m kv = m ++ [kv] := by
      unfold mergeStep
      rw [hkv]
    rw [List.foldl_cons, hstep]
    rw [List.map_cons, List.nodup_cons] at hnd
    have hfresh2 : ∀ kv2 ∈ rest, plookup kv2.1 (m ++ [kv]) = none := by
      intro kv2 hkv2
      rw [plookup_append m [kv]]
      rw [hfresh kv2 (List.mem_cons_of_mem kv hkv2)]
      have hne : kv.1 ≠ kv2.1 := by
        intro hc
        exact hnd.1 (hc ▸ List.mem_map_of_mem Prod.fst hkv2)
      simp [plookup, hne]
    rw [ih (m ++ [kv]) hfresh2 hnd.2]
    simp

theorem mergeStep_absorb {m : PyDict} {kv : String × JVal}
    (hl : plookup kv.1 m = some kv.2) (hs : kv.2.isScalar = true) :
    mergeStep m kv = m := by
  unfold mergeStep
  rw [hl]
  have hj : jeq kv.2 kv.2 = true := jeq_refl_scalar hs
  cases h : kv.2 <;> simp_all [JVal.isScalar]

theorem foldl_mergeStep_absorb :
    ∀ (L : PyDict) (m : PyDict),
      (∀ kv ∈ L, plookup kv.1 m = some kv.2 ∧ kv.2.isScalar = true) →
      L.foldl mergeStep m = m := by
  intro L
  induction L with
  | nil => intro m _; rfl
  | cons kv rest ih =>
    intro m h
    have h1 := h kv (List.mem_cons_self kv rest)
    rw [List.foldl_cons, mergeStep_absorb h1.1 h1.2]
    exact ih m fun kv2 hkv2 => h kv2 (List.mem_cons_of_mem kv hkv2)

theorem mergeStep_pair_of_scalar {m : PyDict} {g : String} {t s : String}
    (hl : plookup g m = some (.vstr t)) (hne : t ≠ s) :
    mergeStep m (g, .vstr s) = assocSet m g (.vlist [.vstr t, .vstr s]) := by
  unfold mergeStep
  simp only [hl]
  simp [jeq, hne]

theorem mergeStep_list_extend {m : PyDict} {g : String} {xs : List JVal}
    {v : JVal} (hl : plookup g m = some (.vlist xs))
    (hne : pyElem xs v = false) :
    mergeStep m (g, v) = assocSet m g (.vlist (xs ++ [v])) := by
  unfold mergeStep
  simp only [hl, hne]
  simp

theorem pyElem_map_vstr (acc : List String) (s : String) :
    pyElem (acc.map JVal.vstr) (.vstr s) = decide (s ∈ acc) := by
  induction acc with
  | nil => simp [pyElem]
  | cons a rest ih =>
    simp only [List.map_cons, pyElem, List.any_cons, jeq] at ih ⊢
    rw [ih]
    have hbe : (a == s) = decide (s = a) := by
      by_cases h : a = s
      · subst h; simp
      · simp [h, Ne.symm h]
    rw [hbe]
    simp [List.mem_cons]

theorem cartProdJ_single (L : List JVal) :
    cartProdJ [L] = L.map fun v => [v] := by
  show L.flatMap (fun v => (cartProdJ []).map fun combo => v :: combo) = _
  induction L with
  | nil => rfl
  | cons v rest ih =>
    rw [List.flatMap_cons, ih]
    rfl

/-- The identifier suffix decompose_query appends for the identity parameters
that are present in the query but not groupable. -/
def decomposeTail (spec : MethodSpec) (query : PyDict) : List String :=
  (((spec.parameters.filter fun p =>
      p.2 && (plookup p.1 query).isSome).map Prod.fst).filter
    fun k => !spec.group_queries.contains k).map fun k =>
      pyStr ((plookup k query).getD .vnull)

theorem decompose_single_group (spec : MethodSpec) (query : PyDict)
    (g : String) (vs : List JVal)
    (hg : spec.group_queries = [g])
    (hparam : (g, true) ∈ spec.parameters)
    (hval : plookup g query = some (.vlist vs)) :
    decompose_query spec query =
      vs.map fun v =>
        (joinUnderscore (pyStr v :: decomposeTail spec query),
          assocSet query g v) := by
  have hkeymem : g ∈ (spec.parameters.filter fun p =>
      p.2 && (plookup p.1 query).isSome).map Prod.fst :=
    List.mem_map.mpr ⟨(g, true),
      List.mem_filter.mpr ⟨hparam, by simp [hval]⟩, rfl⟩
  have hguard : (((spec.parameters.filter fun p =>
      p.2 && (plookup p.1 query).isSome).map Prod.fst).any
        fun k => spec.group_queries.contains k) = true :=
    List.any_eq_true.mpr ⟨g, hkeymem, by simp [hg]⟩
  unfold decompose_query
  simp only [hguard, Bool.not_true, Bool.false_eq_true, if_false]
  rw [hg]
  have hpools : ([g].filterMap fun k =>
      match plookup k query with
      | some (.vlist xs) => some xs
      | _ => none) = [vs] := by
    simp [List.filterMap_cons, hval]
  rw [hpools, cartProdJ_single, List.map_map]
  apply List.map_congr_left
  intro v _
  simp only [Function.comp]
  unfold decomposeTail
  rw [hg]
  rfl

theorem shape_absorbs (A B : PyDict) (g : String) (X : JVal)
    (hnd : (A.map Prod.fst ++ g :: B.map Prod.fst).Nodup)
    (hAs : ∀ kv ∈ A, kv.2.isScalar = true)
    (hBs : ∀ kv ∈ B, kv.2.isScalar = true) :
    A.foldl mergeStep (A ++ (g, X) :: B) = A ++ (g, X) :: B ∧
      B.foldl mergeStep (A ++ (g, X) :: B) = A ++ (g, X) :: B := by
  have hndM : ((A ++ (g, X) :: B).map Prod.fst).Nodup := by simpa using hnd
  constructor
  · apply foldl_mergeStep_absorb
    intro kv hkv
    exact ⟨plookup_eq_of_mem_nodup hndM (List.mem_append_left _ hkv),
      hAs kv hkv⟩
  · apply foldl_mergeStep_absorb
    intro kv hkv
    exact ⟨plookup_eq_of_mem_nodup hndM
      (List.mem_append_right _ (List.mem_cons_of_mem _ hkv)), hBs kv hkv⟩

theorem fold_one_dict (A B : PyDict) (g : String) (v X Y : JVal)
    (hnd : (A.map Prod.fst ++ g :: B.map Prod.fst).Nodup)
    (hAs : ∀ kv ∈ A, kv.2.isScalar = true)
    (hBs : ∀ kv ∈ B, kv.2.isScalar = true)
    (hstep : mergeStep (A ++ (g, X) :: B) (g, v) = A ++ (g, Y) :: B) :
    (A ++ (g, v) :: B).foldl mergeStep (A ++ (g, X) :: B) =
      A ++ (g, Y) :: B := by
  rw [List.foldl_append, (shape_absorbs A B g X hnd hAs hBs).1,
    List.foldl_cons, hstep]
  exact (shape_absorbs A B g Y hnd hAs hBs).2

theorem merge_loop (A B : PyDict) (g : String)
    (hAne : ∀ kv ∈ A, kv.1 ≠ g)
    (hnd : (A.map Prod.fst ++ g :: B.map Prod.fst).Nodup)
    (hAs : ∀ kv ∈ A, kv.2.isScalar = true)
    (hBs : ∀ kv ∈ B, kv.2.isScalar = true) :
    ∀ (rest acc : List String), (∀ s ∈ rest, s ∉ acc) → rest.Nodup →
      (rest.map fun s => A ++ (g, JVal.vstr s) :: B).foldl
          (fun m d => d.foldl mergeStep m)
          (A ++ (g, .vlist (acc.map JVal.vstr)) :: B) =
        A ++ (g, .vlist ((acc ++ rest).map JVal.vstr)) :: B := by
  intro rest
  induction rest with
  | nil => intro acc _ _; simp
  | cons s rest ih =>
    intro acc hnotin hrestnd
    rw [List.map_cons, List.foldl_cons]
    have hlook : plookup g (A ++ (g, .vlist (acc.map JVal.vstr)) :: B) =
        some (.vlist (acc.map JVal.vstr)) := plookup_append_mid hAne _ _
    have hel : pyElem (acc.map JVal.vstr) (.vstr s) = false := by
      rw [pyElem_map_vstr]
      simpa using hnotin s (List.mem_cons_self s rest)
    have hstep : mergeStep (A ++ (g, .vlist (acc.map JVal.vstr)) :: B)
        (g, .vstr s) =
        A ++ (g, .vlist ((acc ++ [s]).map JVal.vstr)) :: B := by
      rw [mergeStep_list_extend hlook hel, assocSet_append_not_mem hAne]
      rw [List.map_append]
      rfl
    rw [fold_one_dict A B g (.vstr s) _ _ hnd hAs hBs hstep]
    rw [List.nodup_cons] at hrestnd
    have hnotin2 : ∀ t ∈ rest, t ∉ acc ++ [s] := by
      intro t ht hc
      rcases List.mem_append.mp hc with h | h
      · exact hnotin t (List.mem_cons_of_mem s ht) h
      · rw [List.mem_singleton] at h
        exact hrestnd.1 (h ▸ ht)
    rw [ih (acc ++ [s]) hnotin2 hrestnd.2]
    simp

/-- Amended C7: for a method spec with a single groupable identity parameter
whose query value is a list of at least two pairwise-distinct string
identifiers, with every other query entry scalar, merging the parameter maps
of the SubQueries produced by decompose_query reconstructs the original query
exactly, and the SubQuery identifiers are pairwise distinct. The
counterexample forces the distinctness and shape restrictions: duplicate
identifiers break both conjuncts, multiple groupable parameters are zipped
against a combination tuple for only the list-valued ones, extra list-valued
entries are corrupted by merge_dicts, and a singleton list merges back to a
scalar. -/
theorem c7_decompose_merge_inverse (spec : MethodSpec) (query : PyDict)
    (g : String) (ss : List String)
    (hg : spec.group_queries = [g])
    (hparam : (g, true) ∈ spec.parameters)
    (hval : plookup g query = some (.vlist (ss.map JVal.vstr)))
    (hssnd : ss.Nodup) (hlen : 2 ≤ ss.length)
    (hscalar : ∀ kv ∈ query, kv.1 ≠ g → kv.2.isScalar = true)
    (hkeys : (query.map Prod.fst).Nodup) :
    merge_dicts ((decompose_query spec query).map Prod.snd) = query ∧
      ((decompose_query spec query).map Prod.fst).Nodup := by
  have hdec := decompose_single_group spec query g (ss.map JVal.vstr) hg
    hparam hval
  obtain ⟨A, B, hq, hAne⟩ := split_of_plookup hval
  have hndShape : (A.map Prod.fst ++ g :: B.map Prod.fst).Nodup := by
    have h := hkeys
    rw [hq] at h
    simpa using h
  have hBne : ∀ kv ∈ B, kv.1 ≠ g := by
    intro kv hkv hc
    have h1 : (g :: B.map Prod.fst).Nodup := hndShape.of_append_right
    rw [List.nodup_cons] at h1
    exact h1.1 (hc ▸ List.mem_map_of_mem Prod.fst hkv)
  have hAs : ∀ kv ∈ A, kv.2.isScalar = true := fun kv hkv =>
    hscalar kv (by rw [hq]; exact List.mem_append_left _ hkv) (hAne kv hkv)
  have hBs : ∀ kv ∈ B, kv.2.isScalar = true := fun kv hkv =>
    hscalar kv
      (by rw [hq]; exact List.mem_append_right _ (List.mem_cons_of_mem _ hkv))
      (hBne kv hkv)
  constructor
  · rw [hdec]
    have hmaps : (((ss.map JVal.vstr).map fun v =>
        (joinUnderscore (pyStr v :: decomposeTail spec query),
          assocSet query g v)).map Prod.snd) =
        ss.map fun s => A ++ (g, JVal.vstr s) :: B := by
      rw [List.map_map, List.map_map]
      apply List.map_congr_left
      intro s _
      show assocSet query g (JVal.vstr s) = _
      rw [hq]
      exact assocSet_append_not_mem hAne _ _ B
    rw [hmaps]
    cases ss with
    | nil => simp at hlen
    | cons s₀ tail =>
      cases tail with
      | nil => simp at hlen
      | cons s₁ rest =>
        rw [List.nodup_cons] at hssnd
        have hs0 := hssnd.1
        rw [List.nodup_cons] at hssnd
        have hs1 := hssnd.2.1
        have hrestnd := hssnd.2.2
        have hne01 : s₀ ≠ s₁ := fun hc =>
          hs0 (hc ▸ List.mem_cons_self s₁ rest)
        unfold merge_dicts
        rw [List.map_cons, List.map_cons, List.foldl_cons, List.foldl_cons]
        have h0 : (A ++ (g, JVal.vstr s₀) :: B).foldl mergeStep [] =
            A ++ (g, JVal.vstr s₀) :: B := by
          have hf := foldl_mergeStep_fresh (A ++ (g, JVal.vstr s₀) :: B) []
            (fun kv _ => rfl) (by simpa using hndShape)
          simpa using hf
        rw [h0]
        have hlook0 : plookup g (A ++ (g, JVal.vstr s₀) :: B) =
            some (JVal.vstr s₀) := plookup_append_mid hAne _ _
        have hstep1 : mergeStep (A ++ (g, JVal.vstr s₀) :: B)
            (g, JVal.vstr s₁) =
            A ++ (g, JVal.vlist [JVal.vstr s₀, JVal.vstr s₁]) :: B := by
          rw [mergeStep_pair_of_scalar hlook0 hne01]
          exact assocSet_append_not_mem hAne _ _ B
        rw [fold_one_dict A B g (JVal.vstr s₁) _ _ hndShape hAs hBs hstep1]
        have hnotin : ∀ t ∈ rest, t ∉ ([s₀, s₁] : List String) := by
          intro t ht hc
          rcases List.mem_cons.mp hc with h | h
          · exact hs0 (h ▸ List.mem_cons_of_mem s₁ ht)
          · rw [List.mem_singleton] at h
            exact hs1 (h ▸ ht)
        have hloop := merge_loop A B g hAne hndShape hAs hBs rest [s₀, s₁]
          hnotin hrestnd
        rw [show (JVal.vlist [JVal.vstr s₀, JVal.vstr s₁]) =
          JVal.vlist (([s₀, s₁] : List String).map JVal.vstr) from rfl]
        rw [hloop, hq]
        rfl
  · rw [hdec, List.map_map, List.map_map]
    show (ss.map fun s =>
      joinUnderscore (s :: decomposeTail spec query)).Nodup
    apply List.Nodup.map ?hinj hssnd
    intro a b hab
    cases hT : decomposeTail spec query with
    | nil =>
      rw [hT] at hab
      simpa [joinUnderscore] using hab
    | cons t ts =>
      rw [hT] at hab
      have hab2 : a ++ "_" ++ joinUnderscore (t :: ts) =
          b ++ "_" ++ joinUnderscore (t :: ts) := hab
      have hab3 : a ++ "_" = b ++ "_" := strAppend_cancel_right hab2
      exact strAppend_cancel_right hab3

theorem c7_decompose_merge_inverse_witness :
    merge_dicts ((decompose_query groupableGeneSpec
        [("gene", .vlist [.vstr "P1", .vstr "P2"]),
         ("tax", .vstr "9606")]).map Prod.snd) =
      [("gene", .vlist [.vstr "P1", .vstr "P2"]), ("tax", .vstr "9606")] ∧
    ((decompose_query groupableGeneSpec
        [("gene", .vlist [.vstr "P1", .vstr "P2"]),
         ("tax", .vstr "9606")]).map Prod.fst).Nodup :=
  c7_decompose_merge_inverse groupableGeneSpec
    [("gene", .vlist [.vstr "P1", .vstr "P2"]), ("tax", .vstr "9606")]
    "gene" ["P1", "P2"] rfl (by decide) rfl (by decide) (by decide)
    (by
      intro kv hkv hne
      rcases List.mem_cons.mp hkv with h | h
      · rw [h] at hne
        exact absurd rfl hne
      · rw [List.mem_singleton] at h
        rw [h]
        rfl)
    (by decide)

/-- Sequencing of the results of a list comprehension: the first exception
propagates, otherwise the list of values is collected in order. -/
def seqExcept : List (Except Unit JVal) → Except Unit (List JVal)
  | [] => .ok []
  | .error e :: _ => .error e
  | .ok v :: rest =>
    match seqExcept rest with
    | .error e => .error e
    | .ok vs => .ok (v :: vs)

/-- utils.get_nested on a pre-split path: an empty remaining path (the
source re-joins and re-splits the tail at each level, so a tail of zero
segments or one empty segment both mean the empty path) returns the data; a
dict descends into the first entry matching the leading segment, mapping
itself over list values and unwrapping a single-element result list; a
missing key yields Python None; a non-dict value with a non-empty remaining
path raises AttributeError in the source, modelled as the error case. -/
def getNestedSegs : List String → JVal → Except Unit JVal
  | [], data => .ok data
  | k :: rest, data =>
    if k = "" ∧ rest = [] then .ok data
    else
      match data with
      | .vdict entries =>
        match plookup k entries with
        | some (.vdict inner) => getNestedSegs rest (.vdict inner)
        | some (.vlist xs) =>
          match seqExcept (xs.map (getNestedSegs rest)) with
          | .error e => .error e
          | .ok lst =>
            if lst.length = 1 then .ok (lst.headD .vnull)
            else .ok (.vlist lst)
        | some v => .ok v
        | none => .ok .vnull
      | _ => .error ()

/-- utils.get_nested with the default separator: the value at the dotted
path, Python None (vnull) when a key on the path is absent, an exception
when the traversal hits a non-dict with path left over. -/
def getNested (data : JVal) (path : String) : Except Unit JVal :=
  if path = "" then .ok data
  else getNestedSegs (splitDots path) data

/-- The option pre-step of BaseAPIInterface._extract_fields: when the call
option is truthy, the spec is a dict, and the option is one of its keys, the
spec is replaced by that entry. -/
def specFor (fte : Option JVal) (opt : Option String) : Option JVal :=
  match fte, opt with
  | some (.vdict pairs), some o =>
    match plookup o pairs with
    | some sub => some sub
    | none => some (.vdict pairs)
  | _, _ => fte

/-- The dict comprehension of a list-shaped projection spec: one entry per
requested path, keyed by the path itself; a non-string path makes get_nested
raise ValueError in the source. -/
def projectKeysDict (d : JVal) : List JVal → Except Unit PyDict
  | [] => .ok []
  | k :: rest =>
    match k with
    | .vstr ks =>
      match getNested d ks with
      | .error e => .error e
      | .ok v =>
        match projectKeysDict d rest with
        | .error e => .error e
        | .ok tail => .ok ((ks, v) :: tail)
    | _ => .error ()

/-- The dict comprehension of a map-shaped projection spec: one entry per
desired name, addressed by the mapped source path. -/
def projectPairsDict (d : JVal) : List (String × JVal) → Except Unit PyDict
  | [] => .ok []
  | (nk, pv) :: rest =>
    match pv with
    | .vstr path =>
      match getNested d path with
      | .error e => .error e
      | .ok v =>
        match projectPairsDict d rest with
        | .error e => .error e
        | .ok tail => .ok ((nk, v) :: tail)
    | _ => .error ()

def mapExceptJ (f : JVal → Except Unit JVal) :
    List JVal → Except Unit (List JVal)
  | [] => .ok []
  | x :: xs =>
    match f x with
    | .error e => .error e
    | .ok v =>
      match mapExceptJ f xs with
      | .error e => .error e
      | .ok vs => .ok (v :: vs)

/-- BaseAPIInterface._extract_fields: a list spec keeps the named paths, a
dict spec renames them, no spec returns the structure unchanged, and any
other spec shape (or scalar data under a spec) leaves the initial empty
dict, exactly as the chain of isinstance checks in the source does. -/
def extract_fields (data : JVal) (fields_to_extract : Option JVal)
    (opt : Option String) : Except Unit JVal :=
  match specFor fields_to_extract opt with
  | some (.vlist keys) =>
    match data with
    | .vlist items =>
      match mapExceptJ
          (fun item => (projectKeysDict item keys).map JVal.vdict) items with
      | .error e => .error e
      | .ok rs => .ok (.vlist rs)
    | .vdict entries =>
      (projectKeysDict (.vdict entries) keys).map JVal.vdict
    | _ => .ok (.vdict [])
  | some (.vdict pairs) =>
    match data with
    | .vlist items =>
      match mapExceptJ
          (fun item => (projectPairsDict item pairs).map JVal.vdict) items with
      | .error e => .error e
      | .ok rs => .ok (.vlist rs)
    | .vdict entries =>
      (projectPairsDict (.vdict entries) pairs).map JVal.vdict
    | _ => .ok (.vdict [])
  | none =>
    match data with
    | .vlist items => .ok (.vlist items)
    | .vdict entries => .ok (.vdict entries)
    | _ => .ok (.vdict [])
  | some _ => .ok (.vdict [])

/-- C9: the documented projection example. A dotted path descends nested
maps; a path segment resolving to a sequence maps the traversal over every
element (two matches for c.d keep a two-element list); and a single-element
result list is unwrapped to a scalar. -/
theorem c9_projection_example :
    extract_fields
        (.vdict [("a", .vdict [("b", .vint 5)]),
                 ("c", .vlist [.vdict [("d", .vint 1)],
                               .vdict [("d", .vint 2)]])])
        (some (.vlist [.vstr "a.b", .vstr "c.d"])) (some "default") =
      .ok (.vdict [("a.b", .vint 5), ("c.d", .vlist [.vint 1, .vint 2])]) ∧
    getNested (.vdict [("c", .vlist [.vdict [("d", .vint 1)]])]) "c.d" =
      .ok (.vint 1) :=
  ⟨rfl, rfl⟩

theorem splitChars_ne_nil (p : Char → Bool) : ∀ cs, splitChars p cs ≠ [] := by
  intro cs
  induction cs with
  | nil => simp [splitChars]
  | cons c cs ih =>
    by_cases h : p c = true
    · simp [splitChars, h]
    · cases heq : splitChars p cs with
      | nil => exact absurd heq ih
      | cons piece rest => simp [splitChars, h, heq]

theorem splitChars_eq_single_nil (p : Char → Bool) :
    ∀ cs, splitChars p cs = [[]] → cs = [] := by
  intro cs
  cases cs with
  | nil => intro _; rfl
  | cons c cs =>
    intro h
    by_cases hp : p c = true
    · rw [splitChars, if_pos hp] at h
      have : splitChars p cs = [] := by
        injection h with h1 h2
      exact absurd this (splitChars_ne_nil p cs)
    · cases heq : splitChars p cs with
      | nil => exact absurd heq (splitChars_ne_nil p cs)
      | cons piece rest =>
        rw [splitChars, if_neg hp, heq] at h
        injection h with h1 h2
        exact absurd h1 (by simp)

theorem splitDots_ne_nil (s : String) : splitDots s ≠ [] := by
  intro h
  unfold splitDots splitStr at h
  rw [List.map_eq_nil_iff] at h
  exact splitChars_ne_nil _ s.data h

theorem splitDots_eq_single_empty {s : String} (h : splitDots s = [""]) :
    s = "" := by
  unfold splitDots splitStr at h
  cases heq : splitChars (fun c => c = '.') s.data with
  | nil => exact absurd heq (splitChars_ne_nil _ s.data)
  | cons piece rest =>
    rw [heq, List.map_cons] at h
    injection h with h1 h2
    rw [List.map_eq_nil_iff] at h2
    have hpiece : piece = [] := by
      have := congrArg String.data h1
      simpa using this
    have hcs : s.data = [] :=
      splitChars_eq_single_nil _ s.data (by rw [heq, hpiece, h2])
    cases s
    exact congrArg String.mk hcs

/-- C10: projecting a field whose first path segment is absent from the map
yields Python None rather than an exception, for the raw get_nested
traversal, a list-shaped projection spec and a map-shaped projection spec
alike. -/
theorem c10_missing_field_none (entries : PyDict) (path : String)
    (nk : String) (hp : path ≠ "")
    (hk : plookup ((splitDots path).headD "") entries = none)
    (hnk : nk ≠ "default") :
    getNested (.vdict entries) path = .ok .vnull ∧
    extract_fields (.vdict entries) (some (.vlist [.vstr path]))
      (some "default") = .ok (.vdict [(path, .vnull)]) ∧
    extract_fields (.vdict entries) (some (.vdict [(nk, .vstr path)]))
      (some "default") = .ok (.vdict [(nk, .vnull)]) := by
  obtain ⟨k, rest, hsegs⟩ : ∃ k rest, splitDots path = k :: rest := by
    cases heq : splitDots path with
    | nil => exact absurd heq (splitDots_ne_nil path)
    | cons k rest => exact ⟨k, rest, rfl⟩
  have hbase : ¬ (k = "" ∧ rest = []) := by
    rintro ⟨h1, h2⟩
    exact hp (splitDots_eq_single_empty (by rw [hsegs, h1, h2]))
  have hk2 : plookup k entries = none := by
    have hh : (splitDots path).headD "" = k := by rw [hsegs]; rfl
    rwa [hh] at hk
  have hnested : getNested (.vdict entries) path = .ok .vnull := by
    rw [getNested, if_neg hp, hsegs]
    simp [getNestedSegs, hbase, hk2]
  refine ⟨hnested, ?_, ?_⟩
  · simp [extract_fields, specFor, projectKeysDict, hnested, Except.map]
  · simp [extract_fields, specFor, projectPairsDict, hnested, plookup, hnk,
      Except.map]

theorem c10_missing_field_none_witness :
    getNested (.vdict [("x", .vint 1)]) "y.z" = .ok .vnull ∧
    extract_fields (.vdict [("x", .vint 1)]) (some (.vlist [.vstr "y.z"]))
      (some "default") = .ok (.vdict [("y.z", .vnull)]) ∧
    extract_fields (.vdict [("x", .vint 1)])
      (some (.vdict [("name", .vstr "y.z")])) (some "default") =
      .ok (.vdict [("name", .vnull)]) :=
  c10_missing_field_none [("x", .vint 1)] "y.z" "name" (by decide) rfl
    (by decide)

/-- BaseAPIInterface.fetch_batch restricted to scalar (string) queries with
parse=False, for which no subqueries are generated and _maybe_parse is the
identity. The cache-scan loop appends every cache hit to the shared results
list in input order and records each miss with its index; the executor then
submits fetch_single per missing index, and the result-collection loop
iterates the futures dict in submission (hence input) order, appending each
successful result and swallowing (printing) any exception, so a failed query
contributes no slot. `fetchQ` stands for the outcome of the fetch_single
call a worker performs for a missing query. -/
def fetch_batch (queries : List String) (cache : String → Option JVal)
    (fetchQ : String → Except Unit JVal) : List JVal :=
  let scan := queries.foldl
    (fun acc q =>
      match cache q with
      | some r => (acc.1 ++ [r], acc.2)
      | none => (acc.1, acc.2 ++ [q]))
    (([], []) : List JVal × List String)
  scan.2.foldl
    (fun acc q =>
      match fetchQ q with
      | .ok r => acc ++ [r]
      | .error _ => acc)
    scan.1

theorem fetch_batch_scan_eq (cache : String → Option JVal) :
    ∀ (queries : List String) (h : List JVal) (m : List String),
      queries.foldl
        (fun acc q =>
          match cache q with
          | some r => (acc.1 ++ [r], acc.2)
          | none => (acc.1, acc.2 ++ [q])) (h, m) =
      (h ++ queries.filterMap cache,
        m ++ queries.filter fun q => (cache q).isNone) := by
  intro queries
  induction queries with
  | nil => intro h m; simp
  | cons q rest ih =>
    intro h m
    cases hc : cache q with
    | some r =>
      simp only [List.foldl_cons, hc]
      rw [ih (h ++ [r]) m]
      simp [List.filterMap_cons, List.filter_cons, hc]
    | none =>
      simp only [List.foldl_cons, hc]
      rw [ih h (m ++ [q])]
      simp [List.filterMap_cons, List.filter_cons, hc]

theorem fetch_batch_collect_eq (fetchQ : String → Except Unit JVal) :
    ∀ (misses : List String) (acc : List JVal),
      misses.foldl
        (fun acc q =>
          match fetchQ q with
          | .ok r => acc ++ [r]
          | .error _ => acc) acc =
      acc ++ misses.filterMap fun q => (fetchQ q).toOption := by
  intro misses
  induction misses with
  | nil => intro acc; simp
  | cons q rest ih =>
    intro acc
    cases hf : fetchQ q with
    | ok r =>
      simp only [List.foldl_cons, hf]
      rw [ih (acc ++ [r])]
      simp [List.filterMap_cons, hf, Except.toOption]
    | error e =>
      simp only [List.foldl_cons, hf]
      rw [ih acc]
      simp [List.filterMap_cons, hf, Except.toOption]

theorem fetch_batch_split (queries : List String)
    (cache : String → Option JVal) (fetchQ : String → Except Unit JVal) :
    fetch_batch queries cache fetchQ =
      queries.filterMap cache ++
        ((queries.filter fun q => (cache q).isNone).filterMap
          fun q => (fetchQ q).toOption) := by
  unfold fetch_batch
  rw [fetch_batch_scan_eq cache queries [] []]
  simp only [List.nil_append]
  rw [fetch_batch_collect_eq]

/-- C1 is contradicted by the code: fetch_batch appends cache hits during the
scan and fetched results afterwards, so with input 0 a miss and input 1 a
hit, output slot 0 holds input 1's cached result and slot 1 holds input 0's
fetched result: the output order is not the input order. -/
theorem c1_batch_order_counterexample :
    fetch_batch ["q0", "q1"]
        (fun q => if q = "q1" then some (.vstr "cached1") else none)
        (fun q => .ok (.vstr ("fetched_" ++ q))) =
      [.vstr "cached1", .vstr "fetched_q0"] ∧
    fetch_batch ["q0", "q1"]
        (fun q => if q = "q1" then some (.vstr "cached1") else none)
        (fun q => .ok (.vstr ("fetched_" ++ q))) ≠
      [.vstr "fetched_q0", .vstr "cached1"] := by
  constructor
  · rfl
  · rw [show fetch_batch ["q0", "q1"]
        (fun q => if q = "q1" then some (.vstr "cached1") else none)
        (fun q => .ok (.vstr ("fetched_" ++ q))) =
      [.vstr "cached1", .vstr "fetched_q0"] from rfl]
    intro hc
    injection hc with h1 h2
    injection h1 with h3
    exact absurd (congrArg String.length h3) (by decide)

/-- Amended C1: the output of a batch lists every cache-hit result in input
order, followed by the successfully fetched results of the cache misses in
their input order (worker completion order never matters because the
futures dict is iterated in submission order); output slot i therefore
corresponds to input i only when no miss precedes a hit. -/
theorem c1_batch_hits_before_misses (queries : List String)
    (cache : String → Option JVal) (fetchQ : String → Except Unit JVal) :
    fetch_batch queries cache fetchQ =
      queries.filterMap cache ++
        ((queries.filter fun q => (cache q).isNone).filterMap
          fun q => (fetchQ q).toOption) :=
  fetch_batch_split queries cache fetchQ

/-- C2 is contradicted by the code: a 3-query batch whose middle query fails
produces a 2-element output holding the two successful results; the failing
query's slot is omitted entirely, not filled with a failure marker. The
exception itself is swallowed by the collection loop, so that part of the
claim holds. -/
theorem c2_partial_failure_counterexample :
    fetch_batch ["a", "b", "c"] (fun _ => none)
        (fun q => if q = "b" then .error () else .ok (.vstr q)) =
      [.vstr "a", .vstr "c"] ∧
    (fetch_batch ["a", "b", "c"] (fun _ => none)
        (fun q => if q = "b" then .error () else .ok (.vstr q))).length ≠
      3 := by
  refine ⟨rfl, ?_⟩
  rw [show fetch_batch ["a", "b", "c"] (fun _ => none)
      (fun q => if q = "b" then .error () else .ok (.vstr q)) =
    [.vstr "a", .vstr "c"] from rfl]
  decide

/-- Amended C2: for a 3-query batch of uncached queries whose middle fetch
fails, no exception escapes (the model is total: errors are consumed by the
collection loop) and the output is the 2-element list of the two successful
results in input order, with the failing query's slot omitted. -/
theorem c2_partial_failure_omits_slot (q0 q1 q2 : String)
    (cache : String → Option JVal) (fetchQ : String → Except Unit JVal)
    (r0 r2 : JVal) (e : Unit)
    (hc0 : cache q0 = none) (hc1 : cache q1 = none) (hc2 : cache q2 = none)
    (hf0 : fetchQ q0 = .ok r0) (hf1 : fetchQ q1 = .error e)
    (hf2 : fetchQ q2 = .ok r2) :
    fetch_batch [q0, q1, q2] cache fetchQ = [r0, r2] := by
  rw [fetch_batch_split]
  simp [hc0, hc1, hc2, hf0, hf1, hf2, List.filterMap_cons,
    List.filter_cons, Except.toOption]

theorem c2_partial_failure_omits_slot_witness :
    fetch_batch ["a", "b", "c"] (fun _ => none)
        (fun q => if q = "b" then .error () else .ok (.vstr q)) =
      [.vstr "a", .vstr "c"] :=
  c2_partial_failure_omits_slot "a" "b" "c" (fun _ => none)
    (fun q => if q = "b" then .error () else .ok (.vstr q))
    (.vstr "a") (.vstr "c") () rfl rfl rfl rfl rfl rfl

/-- BaseAPIInterface.has_results: os.path.exists on the cache path. The
filesystem is a partial map from cache key to raw file content. -/
def has_results (fs : String → Option String) (key : String) : Bool :=
  (fs key).isSome

/-- BaseAPIInterface.load_cache with _load_file: when the cache file exists
its content is decoded (json.load / read_csv), and a decode failure on a
corrupt file raises with no handler anywhere in load_cache; a missing file
yields Python None. -/
def load_cache (fs : String → Option String)
    (parseFile : String → Except Unit JVal) (key : String) :
    Except Unit (Option JVal) :=
  match fs key with
  | some raw => (parseFile raw).map some
  | none => .ok none

/-- The no-decomposition branch of BaseAPIInterface.fetch_single with
parse=False: if has_results reports a cached file, load_cache is called with
no try/except, so any decode error propagates to the caller; only when the
file is absent is the network fetch collaborator invoked. `fetchF` stands
for the outcome of self.fetch for this query. -/
def fetch_single_nodecomp (fs : String → Option String)
    (parseFile : String → Except Unit JVal) (fetchF : Except Unit JVal)
    (key : String) : Except Unit JVal :=
  if has_results fs key then
    match load_cache fs parseFile key with
    | .error e => .error e
    | .ok r => .ok (r.getD .vnull)
  else fetchF

/-- C4 is contradicted by the code: with a corrupt (unparseable) cache file
present under the key, fetch_single raises the decode error instead of
treating the situation as a cache miss; in particular the result is not the
value the network fetch would have returned. -/
theorem c4_corrupt_cache_raises :
    fetch_single_nodecomp
        (fun k => if k = makeCacheKey cacheKeyIgnoreArgs (.qstr "P12345") []
          then some "corrupt" else none)
        (fun raw => if raw = "corrupt" then .error () else .ok (.vstr raw))
        (.ok (.vstr "fresh"))
        (makeCacheKey cacheKeyIgnoreArgs (.qstr "P12345") []) =
      .error () ∧
    (Except.error () : Except Unit JVal) ≠ .ok (.vstr "fresh") := by
  refine ⟨rfl, ?_⟩
  intro hc
  cases hc

/-- Amended C4: only a missing cache file is treated as a cache miss that
reaches the network; an existing but corrupt cache file makes fetch_single
propagate the decode error to its caller, with no re-fetch and no logging
fallback. -/
theorem c4_cache_miss_and_corrupt_behavior (fs : String → Option String)
    (parseFile : String → Except Unit JVal) (fetchF : Except Unit JVal)
    (key : String) :
    (fs key = none →
      fetch_single_nodecomp fs parseFile fetchF key = fetchF) ∧
    (∀ raw e, fs key = some raw → parseFile raw = .error e →
      fetch_single_nodecomp fs parseFile fetchF key = .error e) := by
  constructor
  · intro hmiss
    unfold fetch_single_nodecomp has_results
    rw [hmiss]
    rfl
  · intro raw e hhit hcorrupt
    unfold fetch_single_nodecomp has_results load_cache
    rw [hhit]
    simp [hcorrupt, Except.map]

theorem c4_cache_miss_and_corrupt_behavior_witness :
    fetch_single_nodecomp (fun _ => none)
        (fun raw => if raw = "corrupt" then .error () else .ok (.vstr raw))
        (.ok (.vstr "fresh")) "missing-key" = .ok (.vstr "fresh") ∧
    fetch_single_nodecomp (fun _ => some "corrupt")
        (fun raw => if raw = "corrupt" then .error () else .ok (.vstr raw))
        (.ok (.vstr "fresh")) "some-key" = .error () :=
  ⟨(c4_cache_miss_and_corrupt_behavior (fun _ => none)
      (fun raw => if raw = "corrupt" then .error () else .ok (.vstr raw))
      (.ok (.vstr "fresh")) "missing-key").1 rfl,
   (c4_cache_miss_and_corrupt_behavior (fun _ => some "corrupt")
      (fun raw => if raw = "corrupt" then .error () else .ok (.vstr raw))
      (.ok (.vstr "fresh")) "some-key").2 "corrupt" () rfl rfl⟩

/-- The separator class of the token regex in split_results_by_subquery:
whitespace and the characters : - / | (ASCII whitespace; the regex class \s
also matches some Unicode spaces, which do not occur in the claims). -/
def isSepTok (c : Char) : Bool :=
  c = ' ' || c = '\t' || c = '\n' || c = '\r' || c = '\x0b' || c = '\x0c' ||
    c = ':' || c = '-' || c = '/' || c = '|'

/-- Python str.lower for the ASCII identifiers of the claims. -/
def lowerStr (s : String) : String := String.mk (s.data.map Char.toLower)

/-- The normalize helper of split_results_by_subquery applied to one string:
split on the separator class, drop empty pieces, lower-case. The source
first re-parses strings shaped like Python list literals (ast.literal_eval)
and tokenizes the parsed elements; such strings do not occur in the claims
and the re-parse is not modelled. -/
def normalizeStr (s : String) : List String :=
  if s = "" then []
  else ((splitStr isSepTok s).filter fun t => t ≠ "").map lowerStr

mutual

/-- The extract_all_values helper of split_results_by_subquery: all
string/number leaves of a nested structure, as strings, in traversal
order. -/
def extract_all_values : JVal → List String
  | .vdict entries => extractValsEntries entries
  | .vlist xs => extractValsList xs
  | .vstr s => [s]
  | .vint n => [toString n]
  | .vnull => []

def extractValsList : List JVal → List String
  | [] => []
  | x :: xs => extract_all_values x ++ extractValsList xs

def extractValsEntries : List (String × JVal) → List String
  | [] => []
  | kv :: rest => extract_all_values kv.2 ++ extractValsEntries rest

end

/-- BaseAPIInterface.get_matching_values: the values of the match keys (the
subclass-declared subquery_match_keys, else all non-ignored query keys),
stringified and lower-cased, skipping missing keys and None values. -/
def get_matching_values (matchKeys : List String) (ignore : List String)
    (query : PyDict) : List String :=
  let keys :=
    if matchKeys ≠ [] then matchKeys
    else (query.map Prod.fst).filter fun k => k ∉ ignore
  keys.filterMap fun k =>
    match plookup k query with
    | some .vnull => none
    | some v => some (lowerStr (pyStr v))
    | none => none

/-- The expected token set of one subquery (a list; the source wraps it in a
set, and only membership is ever used). -/
def expectedTokens (matchKeys ignore : List String) (q : PyDict) :
    List String :=
  (get_matching_values matchKeys ignore q).flatMap normalizeStr

/-- The normalized token set of one response item. -/
def itemTokens (item : JVal) : List String :=
  (extract_all_values item).flatMap normalizeStr

/-- The membership test of split_results_by_subquery:
expected_tokens and (set(expected_tokens) & item_tokens). -/
def tokensMatch (exp : List String) (toks : List String) : Bool :=
  !exp.isEmpty && exp.any fun t => toks.contains t

/-- One append `mapping[identifier].append(item)` on the buckets. -/
def bucketsAdd (m : List (String × List JVal)) (id : String) (item : JVal) :
    List (String × List JVal) :=
  m.map fun p => if p.1 = id then (p.1, p.2 ++ [item]) else p

/-- The two nested loops of split_results_by_subquery over a normalized item
list: buckets are initialized empty per subquery identifier, and each item
is appended to the bucket of every subquery whose expected tokens intersect
its tokens. Python's mapping and subquery_values are dicts, which would
collapse duplicate identifiers; this list model does not, so the theorem
assumes the identifiers are distinct, as a well-formed decomposition
produces. -/
def splitItems (matchKeys ignore : List String) (items : List JVal)
    (subqueries : List (String × PyDict)) : List (String × List JVal) :=
  let subVals := subqueries.map fun s =>
    (s.1, expectedTokens matchKeys ignore s.2)
  items.foldl
    (fun m item =>
      subVals.foldl
        (fun m2 sv =>
          if tokensMatch sv.2 (itemTokens item) then bucketsAdd m2 sv.1 item
          else m2)
        m)
    (subqueries.map fun s => (s.1, []))

/-- BaseAPIInterface.split_results_by_subquery: a single dict response is
treated as a one-element list, a non-list non-dict response raises
ValueError. -/
def split_results_by_subquery (matchKeys ignore : List String)
    (full_result : JVal) (subqueries : List (String × PyDict)) :
    Except Unit (List (String × List JVal)) :=
  match full_result with
  | .vdict d => .ok (splitItems matchKeys ignore [JVal.vdict d] subqueries)
  | .vlist items => .ok (splitItems matchKeys ignore items subqueries)
  | _ => .error ()

/-- Lookup in the bucket map. -/
def blookup (k : String) : List (String × List JVal) → Option (List JVal)
  | [] => none
  | kv :: rest => if kv.1 = k then some kv.2 else blookup k rest

example :
    split_results_by_subquery [] cacheKeyIgnoreArgs
      (.vlist [.vdict [("id", .vstr "P1"), ("name", .vstr "x")],
               .vdict [("id", .vstr "P2"), ("name", .vstr "y")]])
      [("p1", [("id", .vstr "P1")]), ("p2", [("id", .vstr "P2")])] =
    .ok [("p1", [.vdict [("id", .vstr "P1"), ("name", .vstr "x")]]),
         ("p2", [.vdict [("id", .vstr "P2"), ("name", .vstr "y")]])] := by
  rfl

theorem blookup_bucketsAdd (m : List (String × List JVal)) (id id2 : String)
    (item : JVal) :
    blookup id (bucketsAdd m id2 item) =
      (blookup id m).map fun b => if id = id2 then b ++ [item] else b := by
  induction m with
  | nil => rfl
  | cons kv rest ih =>
    by_cases h1 : kv.1 = id
    · by_cases h2 : kv.1 = id2
      · simp [bucketsAdd, blookup, h1, h2, h1 ▸ h2]
      · have : ¬ id = id2 := fun hc => h2 (h1.trans hc)
        simp [bucketsAdd, blookup, h1, h2, this]
    · by_cases h2 : kv.1 = id2
      · simp only [bucketsAdd, List.map_cons, if_pos h2]
        rw [blookup, blookup, if_neg h1, if_neg h1]
        simpa [bucketsAdd] using ih
      · simp only [bucketsAdd, List.map_cons, if_neg h2]
        rw [blookup, blookup, if_neg h1, if_neg h1]
        simpa [bucketsAdd] using ih

theorem bucketsAdd_keys (m : List (String × List JVal)) (id : String)
    (item : JVal) :
    (bucketsAdd m id item).map Prod.fst = m.map Prod.fst := by
  induction m with
  | nil => rfl
  | cons kv rest ih =>
    by_cases h : kv.1 = id <;> simp [bucketsAdd, h] <;>
      simpa [bucketsAdd] using ih

theorem inner_fold_keys (item : JVal) (svs : List (String × List String)) :
    ∀ m, ((svs.foldl
      (fun m2 sv =>
        if tokensMatch sv.2 (itemTokens item) then bucketsAdd m2 sv.1 item
        else m2) m).map Prod.fst) = m.map Prod.fst := by
  induction svs with
  | nil => intro m; rfl
  | cons sv rest ih =>
    intro m
    rw [List.foldl_cons]
    by_cases h : tokensMatch sv.2 (itemTokens item) = true
    · rw [if_pos h, ih (bucketsAdd m sv.1 item), bucketsAdd_keys]
    · rw [if_neg h, ih m]

theorem inner_fold_notin (item : JVal) (svs : List (String × List String))
    (id : String) (hni : id ∉ svs.map Prod.fst) :
    ∀ m, blookup id (svs.foldl
      (fun m2 sv =>
        if tokensMatch sv.2 (itemTokens item) then bucketsAdd m2 sv.1 item
        else m2) m) = blookup id m := by
  induction svs with
  | nil => intro m; rfl
  | cons sv rest ih =>
    intro m
    rw [List.map_cons, List.mem_cons] at hni
    push_neg at hni
    rw [List.foldl_cons]
    by_cases h : tokensMatch sv.2 (itemTokens item) = true
    · rw [if_pos h, ih hni.2, blookup_bucketsAdd]
      have : ¬ id = sv.1 := hni.1
      simp [this]
    · rw [if_neg h, ih hni.2]

theorem inner_fold_lookup (item : JVal) :
    ∀ (svs : List (String × List String)) (id : String) (exp : List String)
      (m : List (String × List JVal)),
      (id, exp) ∈ svs → (svs.map Prod.fst).Nodup →
      blookup id (svs.foldl
        (fun m2 sv =>
          if tokensMatch sv.2 (itemTokens item) then bucketsAdd m2 sv.1 item
          else m2) m) =
        (blookup id m).map fun b =>
          if tokensMatch exp (itemTokens item) then b ++ [item] else b := by
  intro svs
  induction svs with
  | nil => intro id exp m hmem; cases hmem
  | cons sv rest ih =>
    intro id exp m hmem hnd
    rw [List.map_cons, List.nodup_cons] at hnd
    rw [List.foldl_cons]
    rcases List.mem_cons.mp hmem with h | h
    · have hid : sv.1 = id := by rw [← h]
      have hexp : sv.2 = exp := by rw [← h]
      have hnotin : id ∉ rest.map Prod.fst := hid ▸ hnd.1
      by_cases hm : tokensMatch sv.2 (itemTokens item) = true
      · rw [if_pos hm, inner_fold_notin item rest id hnotin,
          blookup_bucketsAdd]
        simp [hid, hexp ▸ hm]
      · rw [if_neg hm, inner_fold_notin item rest id hnotin]
        have hm2 : ¬ tokensMatch exp (itemTokens item) = true := hexp ▸ hm
        cases hb : blookup id m <;> simp [hm2]
    · have hid : ¬ sv.1 = id := by
        intro hc
        exact hnd.1 (hc ▸ List.mem_map_of_mem Prod.fst h)
      by_cases hm : tokensMatch sv.2 (itemTokens item) = true
      · rw [if_pos hm, ih id exp _ h hnd.2, blookup_bucketsAdd]
        have : ¬ id = sv.1 := fun hc => hid hc.symm
        cases hb : blookup id m <;> simp [this]
      · rw [if_neg hm, ih id exp _ h hnd.2]

theorem outer_fold_lookup (svs : List (String × List String)) (id : String)
    (exp : List String) (hmem : (id, exp) ∈ svs)
    (hnd : (svs.map Prod.fst).Nodup) :
    ∀ (items : List JVal) (m : List (String × List JVal)),
      blookup id (items.foldl
        (fun m item => svs.foldl
          (fun m2 sv =>
            if tokensMatch sv.2 (itemTokens item) then
              bucketsAdd m2 sv.1 item
            else m2) m) m) =
        (blookup id m).map fun b =>
          b ++ items.filter fun item =>
            tokensMatch exp (itemTokens item) := by
  intro items
  induction items with
  | nil => intro m; cases hb : blookup id m <;> simp [hb]
  | cons item rest ih =>
    intro m
    rw [List.foldl_cons, ih, inner_fold_lookup item svs id exp m hmem hnd]
    cases hb : blookup id m with
    | none => simp [hb]
    | some b =>
      rw [List.filter_cons]
      by_cases hm : tokensMatch exp (itemTokens item) = true
      · simp [hm]
      · simp [hm]

theorem blookup_init (subs : List (String × PyDict)) (id : String)
    (hmem : id ∈ subs.map Prod.fst) :
    blookup id (subs.map fun s => (s.1, ([] : List JVal))) = some [] := by
  induction subs with
  | nil => cases hmem
  | cons s rest ih =>
    rw [List.map_cons, List.mem_cons] at hmem
    by_cases h : s.1 = id
    · simp [blookup, h]
    · rw [List.map_cons, blookup, if_neg h]
      rcases hmem with hmem | hmem
      · exact absurd hmem.symm h
      · exact ih hmem

theorem outer_fold_keys (svs : List (String × List String)) :
    ∀ (items : List JVal) (m : List (String × List JVal)),
      ((items.foldl
        (fun m item => svs.foldl
          (fun m2 sv =>
            if tokensMatch sv.2 (itemTokens item) then
              bucketsAdd m2 sv.1 item
            else m2) m) m).map Prod.fst) = m.map Prod.fst := by
  intro items
  induction items with
  | nil => intro m; rfl
  | cons item rest ih =>
    intro m
    rw [List.foldl_cons, ih, inner_fold_keys]

theorem tokensMatch_iff (exp toks : List String) :
    tokensMatch exp toks = true ↔ ∃ t, t ∈ exp ∧ t ∈ toks := by
  unfold tokensMatch
  constructor
  · intro h
    rw [Bool.and_eq_true, List.any_eq_true] at h
    obtain ⟨t, ht, hc⟩ := h.2
    exact ⟨t, ht, by simpa using hc⟩
  · intro ⟨t, ht, hc⟩
    rw [Bool.and_eq_true, List.any_eq_true]
    refine ⟨?_, t, ht, by simpa using hc⟩
    simp only [Bool.not_eq_true']
    rw [List.isEmpty_eq_false_iff_exists_mem]
    exact ⟨t, ht⟩

/-- C8: split_results_by_subquery, on a response list (or a single map
treated as a one-element list), returns a bucket map whose key sequence is
exactly the subquery identifier sequence; the bucket of each subquery is
exactly the sublist of items whose normalized token set intersects the
subquery's expected token set (an identifier matching no item keeps its
empty bucket), and the membership test is precisely non-empty intersection
of the two token sets. -/
theorem c8_split_results_spec (matchKeys ignore : List String)
    (full_result : JVal) (items : List JVal)
    (subqueries : List (String × PyDict))
    (hshape : full_result = .vlist items ∨
      (full_result.isDict = true ∧ items = [full_result]))
    (hnd : (subqueries.map Prod.fst).Nodup) :
    ∃ m, split_results_by_subquery matchKeys ignore full_result subqueries =
        .ok m ∧
      m.map Prod.fst = subqueries.map Prod.fst ∧
      (∀ id q, (id, q) ∈ subqueries →
        blookup id m = some (items.filter fun item =>
          tokensMatch (expectedTokens matchKeys ignore q)
            (itemTokens item))) ∧
      (∀ exp toks, tokensMatch exp toks = true ↔ ∃ t, t ∈ exp ∧ t ∈ toks) := by
  refine ⟨splitItems matchKeys ignore items subqueries, ?_, ?_, ?_,
    fun exp toks => tokensMatch_iff exp toks⟩
  · rcases hshape with h | ⟨hdict, hitems⟩
    · rw [h]
      rfl
    · cases full_result <;> simp [JVal.isDict] at hdict
      rw [hitems]
      rfl
  · unfold splitItems
    rw [outer_fold_keys]
    simp [List.map_map, Function.comp]
  · intro id q hmem
    unfold splitItems
    have hmem2 : (id, expectedTokens matchKeys ignore q) ∈
        subqueries.map fun s => (s.1, expectedTokens matchKeys ignore s.2) :=
      List.mem_map.mpr ⟨(id, q), hmem, rfl⟩
    have hnd2 : ((subqueries.map fun s =>
        (s.1, expectedTokens matchKeys ignore s.2)).map Prod.fst).Nodup := by
      rw [List.map_map]
      simpa [Function.comp] using hnd
    rw [outer_fold_lookup _ id (expectedTokens matchKeys ignore q) hmem2
      hnd2 items _]
    rw [blookup_init subqueries id (List.mem_map.mpr ⟨(id, q), hmem, rfl⟩)]
    simp

theorem c8_split_results_spec_witness :
    ∃ m, split_results_by_subquery [] cacheKeyIgnoreArgs
        (.vlist [.vdict [("id", .vstr "P1"), ("name", .vstr "x")],
                 .vdict [("id", .vstr "P2"), ("name", .vstr "y")]])
        [("p1", [("id", .vstr "P1")]), ("p2", [("id", .vstr "P2")])] =
        .ok m ∧
      m.map Prod.fst = ["p1", "p2"] ∧
      (∀ id q, (id, q) ∈
          [("p1", [("id", JVal.vstr "P1")]), ("p2", [("id", .vstr "P2")])] →
        blookup id m = some
          (([.vdict [("id", .vstr "P1"), ("name", .vstr "x")],
             .vdict [("id", .vstr "P2"), ("name", .vstr "y")]]).filter
            fun item =>
              tokensMatch (expectedTokens [] cacheKeyIgnoreArgs q)
                (itemTokens item))) ∧
      (∀ exp toks, tokensMatch exp toks = true ↔ ∃ t, t ∈ exp ∧ t ∈ toks) :=
  c8_split_results_spec [] cacheKeyIgnoreArgs
    (.vlist [.vdict [("id", .vstr "P1"), ("name", .vstr "x")],
             .vdict [("id", .vstr "P2"), ("name", .vstr "y")]])
    [.vdict [("id", .vstr "P1"), ("name", .vstr "x")],
     .vdict [("id", .vstr "P2"), ("name", .vstr "y")]]
    [("p1", [("id", .vstr "P1")]), ("p2", [("id", .vstr "P2")])]
    (Or.inl rfl) (by decide)
